import Mathlib

/-!
Shallow embedding of the pmd-failure-bot log-extraction pipeline
(`src/script.py`, with the older full-content variant in
`src/load_logs_to_db.py`).

Python regular expressions are embedded as bespoke executable matchers.
Each pattern used by the script is built from literals, greedy character
class repetitions and a small amount of backtracking; for every pattern the
backtracking behaviour of Python's `re` collapses to the deterministic
functions below (arguments are given at each definition).  Character
classes are modelled over their ASCII meaning, which is what the processed
log files contain.  Machine-level concerns (file descriptors, database
connections) are modelled by explicit state: a file is its path pieces plus
an optional list of raw lines (`none` models an unreadable file), the
database is a list of rows, and a cursor that raises is an `Except.error`.
-/

namespace PmdBot

/-! ## Character classes (ASCII fragments of Python's `\s`, `\d`, `\w`) -/

/-- Python `\s` (ASCII): space, tab, newline, carriage return, form feed,
vertical tab. -/
def isPySpace (c : Char) : Bool :=
  c = ' ' || c = '\t' || c = '\n' || c = '\r' || c = '\x0b' || c = '\x0c'

/-- Python `\d` (ASCII): decimal digits. -/
def isPyDigit (c : Char) : Bool :=
  '0' ≤ c && c ≤ '9'

/-- Python `[^,\n]`: any character other than a comma or a newline. -/
def isFieldChar (c : Char) : Bool :=
  !(c = ',' || c = '\n')

/-- Python `\w` (ASCII): letters, digits and underscore. -/
def isWordChar (c : Char) : Bool :=
  c.isAlphanum || c = '_'

/-- Python `[A-Za-z0-9]`. -/
def isAlnumChar (c : Char) : Bool :=
  c.isAlphanum

/-- Python `[:\s]`: a colon or whitespace (used by the `Case[:\s]*(\d+)`
pattern). -/
def isColonSpace (c : Char) : Bool :=
  c = ':' || isPySpace c

/-- Case-insensitive character comparison, as Python's `re.IGNORECASE`
folds ASCII letters. -/
def lowerEq (a b : Char) : Bool :=
  a.toLower = b.toLower

/-! ## Greedy runs and literal matching -/

/-- Split a character list into its maximal leading run satisfying `p`
(the greedy match of `p*`) and the remainder. -/
def maxRun (p : Char → Bool) : List Char → List Char × List Char
  | [] => ([], [])
  | c :: cs =>
    if p c then
      let r := maxRun p cs
      (c :: r.1, r.2)
    else ([], c :: cs)

/-- Match a case-sensitive literal at the head of the input, returning the
remainder on success. -/
def dropLit : List Char → List Char → Option (List Char)
  | [], s => some s
  | _ :: _, [] => none
  | l :: ls, c :: cs => if c = l then dropLit ls cs else none

/-- Match a case-insensitive literal at the head of the input, returning
the remainder on success. -/
def dropLitCI : List Char → List Char → Option (List Char)
  | [], s => some s
  | _ :: _, [] => none
  | l :: ls, c :: cs => if lowerEq c l then dropLitCI ls cs else none

/-- `re.search` position scan: try the pattern matcher `f` at every
position of the input, leftmost first (Python's leftmost-match rule). -/
def searchFrom {α : Type} (f : List Char → Option α) : List Char → Option α
  | [] => f []
  | c :: cs =>
    match f (c :: cs) with
    | some r => some r
    | none => searchFrom f cs

/-! ## The error-line patterns of `extract_error_context` -/

/-- Does a case-insensitive word-boundary occurrence of `w` (a lowercase
word) start exactly at the head of `s`, with `prev` the preceding character
(`none` at line start)?  This is Python's `\bW\b` at one position. -/
def wordAtHead (w : List Char) (prev : Option Char) (s : List Char) : Bool :=
  (match prev with
   | none => true
   | some p => !isWordChar p) &&
  (match dropLitCI w s with
   | none => false
   | some rest =>
     match rest with
     | [] => true
     | c :: _ => !isWordChar c)

/-- Scan for a case-insensitive word-boundary occurrence of `w`
(Python `re.search(r'\bW\b', line, re.IGNORECASE)`). -/
def hasBoundedWord (w : List Char) (s : List Char) : Bool :=
  let rec go (prev : Option Char) : List Char → Bool
    | [] => wordAtHead w prev []
    | c :: cs => wordAtHead w prev (c :: cs) || go (some c) cs
  go none s

/-- Scan for a case-insensitive substring occurrence of `pat`
(Python `re.search` on a pattern of plain literals with `re.IGNORECASE`). -/
def hasSubstrCI (pat : List Char) : List Char → Bool
  | [] => (dropLitCI pat []).isSome
  | c :: cs => (dropLitCI pat (c :: cs)).isSome || hasSubstrCI pat cs

/-- One line matches the fixed error-pattern set of `extract_error_context`
(`script.py` lines 312-335): membership of the line index in
`error_indices` only depends on whether ANY pattern matches, so the inner
`break` is immaterial. -/
def lineMatches (line : String) : Bool :=
  let cs := line.toList
  hasBoundedWord "error".toList cs ||
  hasSubstrCI "[error]".toList cs ||
  hasBoundedWord "fatal".toList cs ||
  hasBoundedWord "failed".toList cs ||
  hasSubstrCI "Refusing to execute".toList cs ||
  hasSubstrCI "Unable to get".toList cs ||
  hasSubstrCI "Unable to retrieve".toList cs ||
  hasSubstrCI "Unable to start".toList cs ||
  hasSubstrCI "connection error".toList cs ||
  hasSubstrCI "maximum retries reached".toList cs ||
  hasSubstrCI "Oracle not available".toList cs

/-! ## Error-context windowing (`extract_error_context`) -/

/-- The ascending list of line indices matching an error pattern: the
script collects them in a Python `set` and then sorts, so the ascending
enumeration below is exactly `sorted(error_indices)`. -/
def errorIndices (lines : List String) : List ℕ :=
  (List.range lines.length).filter (fun i => lineMatches (lines.getD i ""))

/-- The context window around one matching index
(`start = max(0, idx - c)`, `end = min(len(lines), idx + c + 1)`); the
truncated ℕ subtraction is precisely the `max 0` clamp of the script. -/
def windowOf (n c i : ℕ) : ℕ × ℕ :=
  (i - c, min n (i + c + 1))

/-- The window list, in ascending order of the matching indices
(`script.py` lines 342-346). -/
def rangesOf (lines : List String) (c : ℕ) : List (ℕ × ℕ) :=
  (errorIndices lines).map (windowOf lines.length c)

/-- The body of the merge loop of `script.py` lines 349-355: a window is
merged into the last accumulated window exactly when its start is `≤` that
window's end, otherwise it is appended. -/
def mergeStep (acc : List (ℕ × ℕ)) (r : ℕ × ℕ) : List (ℕ × ℕ) :=
  match acc.getLast? with
  | some prev =>
    if r.1 ≤ prev.2 then acc.dropLast ++ [(prev.1, max prev.2 r.2)]
    else acc ++ [r]
  | none => [r]

/-- The merge loop itself (`merged_ranges = []; for start, end in ranges: ...`). -/
def merged_ranges (rs : List (ℕ × ℕ)) : List (ℕ × ℕ) :=
  rs.foldl mergeStep []

/-- Structural form of the same merge loop (carrying the running window),
proved equal to `merged_ranges` below; used for induction. -/
def mergeGo : ℕ × ℕ → List (ℕ × ℕ) → List (ℕ × ℕ)
  | cur, [] => [cur]
  | cur, r :: rs =>
    if r.1 ≤ cur.2 then mergeGo (cur.1, max cur.2 r.2) rs
    else cur :: mergeGo r rs

/-- Python slice `lines[start:end]`. -/
def sliceLines (lines : List String) (r : ℕ × ℕ) : List String :=
  (lines.drop r.1).take (r.2 - r.1)

/-- The literal separator inserted between disjoint merged windows. -/
def SEP : String := "--- ERROR CONTEXT SEPARATOR ---"

/-- The output loop of `script.py` lines 358-363: before each window's
slice, a separator is appended when the accumulated output is nonempty. -/
def contextFold (lines : List String) (rs : List (ℕ × ℕ)) : List String :=
  rs.foldl
    (fun acc r => (if acc.isEmpty then acc else acc ++ [SEP]) ++ sliceLines lines r)
    []

/-- `extract_error_context(lines, context_lines)` (`script.py` 309-366):
returns `[]` when no line matches any pattern, otherwise the concatenated
merged windows with separators.  The `except` branch of the source cannot
fire in this pure pipeline. -/
def extract_error_context (lines : List String) (c : ℕ) : List String :=
  if errorIndices lines = [] then []
  else contextFold lines (merged_ranges (rangesOf lines c))

/-- The multiset of line indices the output draws from: each merged window
contributes its index range.  `contextFold` emits exactly the line contents
at these indices (with separators in between windows). -/
def emittedIndices (lines : List String) (c : ℕ) : List ℕ :=
  (merged_ranges (rangesOf lines c)).foldr
    (fun r acc => List.range' r.1 (r.2 - r.1) ++ acc) []

/-! ## The report-date pattern

`re.search(r'(\d{4}-\d{2}-\d{2}-\d{6})_([A-Za-z0-9]+)$', parent_dir)`
(`script.py` line 387).  All repetition counts are fixed except the final
`[A-Za-z0-9]+$`; the greedy run either reaches the end of the string (or
the position before one final newline, where Python's `$` also matches) or
the whole position fails, so the matcher is deterministic. -/

/-- Take exactly `n` characters satisfying `p` (Python `p{n}`). -/
def takeCount (p : Char → Bool) : ℕ → List Char → Option (List Char × List Char)
  | 0, s => some ([], s)
  | _ + 1, [] => none
  | n + 1, c :: cs =>
    if p c then (takeCount p n cs).map (fun r => (c :: r.1, r.2)) else none

/-- Match the date pattern at one position, returning capture group 1
(the `YYYY-MM-DD-HHMMSS` token). -/
def matchDateIdAt (s : List Char) : Option (List Char) :=
  (takeCount isPyDigit 4 s).bind fun d1 =>
  (dropLit ['-'] d1.2).bind fun s1 =>
  (takeCount isPyDigit 2 s1).bind fun d2 =>
  (dropLit ['-'] d2.2).bind fun s2 =>
  (takeCount isPyDigit 2 s2).bind fun d3 =>
  (dropLit ['-'] d3.2).bind fun s3 =>
  (takeCount isPyDigit 6 s3).bind fun d4 =>
  (dropLit ['_'] d4.2).bind fun s4 =>
  let idrun := maxRun isAlnumChar s4
  if idrun.1.isEmpty then none
  else if idrun.2 = [] || idrun.2 = ['\n'] then
    some (d1.1 ++ '-' :: d2.1 ++ '-' :: d3.1 ++ '-' :: d4.1)
  else none

/-- `re.search` for the date pattern over the parent directory name. -/
def search_date_id (parent_dir : String) : Option (List Char) :=
  searchFrom matchDateIdAt parent_dir.toList

/-! ## Header patterns (`script.py` lines 410-438)

`header_pattern_4` is
`Worker Process Group ID:\s*(\d+),\s*Hostname:\s*([^,\n]+),\s*Executor
Kerberos ID:\s*([^,\n]+),\s*Requesting Kerberos ID:\s*([^,\n]+)` and
`header_pattern_3` is its three-field prefix with a final unterminated
group.  Backtracking collapses as follows.  In `\s*(\d+),` the classes are
disjoint, so the match is the maximal whitespace run, then a nonempty
maximal digit run, then the comma.  In `\s*([^,\n]+),` the group run must
end exactly at the comma, so the only alternatives Python tries are the
maximal run (when nonempty), or — when the maximal run is empty and a
comma follows — giving back the last whitespace character as a
one-character group (possible unless it is a newline, which `[^,\n]`
excludes).  The final `\s*([^,\n]+)` has no continuation, so when the
maximal run after the whitespace is empty Python gives back whitespace
characters until the group can start: the first split tried that succeeds
starts at the LAST non-newline character of the whitespace run (the run it
yields is that single character, stopped by the following newline or by
the non-field character after the whitespace), and the position fails only
when the whitespace run consists solely of newlines.  Every successful
alternative of a comma-terminated group resumes at the same input
position, so the chains below are the exact search. -/

/-- `\s*(\d+),` at one position. -/
def matchDigitsComma (s : List Char) : Option (List Char × List Char) :=
  let w := maxRun isPySpace s
  let d := maxRun isPyDigit w.2
  if d.1.isEmpty then none
  else
    match d.2 with
    | ',' :: tl => some (d.1, tl)
    | _ => none

/-- `\s*([^,\n]+),` at one position, with Python's whitespace give-back. -/
def matchFieldComma (s : List Char) : Option (List Char × List Char) :=
  let w := maxRun isPySpace s
  let r := maxRun isFieldChar w.2
  if r.1.isEmpty then
    match w.2 with
    | ',' :: tl =>
      match w.1.getLast? with
      | some lc => if lc = '\n' then none else some ([lc], tl)
      | none => none
    | _ => none
  else
    match r.2 with
    | ',' :: tl => some (r.1, tl)
    | _ => none

/-- `\s*([^,\n]+)` at the end of the pattern (no trailing comma): when
the maximal field run is empty, Python's whitespace give-back yields the
last non-newline character of the whitespace run as a one-character
group, failing only when the whitespace run is all newlines (or empty). -/
def matchFieldEnd (s : List Char) : Option (List Char) :=
  let w := maxRun isPySpace s
  let r := maxRun isFieldChar w.2
  if r.1.isEmpty then
    match (w.1.reverse.dropWhile (fun c => c = '\n')).head? with
    | some lc => some [lc]
    | none => none
  else some r.1

/-- `\s*` followed by a literal (the literals start with a non-space
letter, so the greedy whitespace run is forced). -/
def wsLit (lit : List Char) (s : List Char) : Option (List Char) :=
  dropLit lit (maxRun isPySpace s).2

/-- `header_pattern_4` at one position: the four capture groups. -/
def match4At (s : List Char) :
    Option (List Char × List Char × List Char × List Char) :=
  (dropLit "Worker Process Group ID:".toList s).bind fun s1 =>
  (matchDigitsComma s1).bind fun g1 =>
  (wsLit "Hostname:".toList g1.2).bind fun s3 =>
  (matchFieldComma s3).bind fun g2 =>
  (wsLit "Executor Kerberos ID:".toList g2.2).bind fun s5 =>
  (matchFieldComma s5).bind fun g3 =>
  (wsLit "Requesting Kerberos ID:".toList g3.2).bind fun s7 =>
  (matchFieldEnd s7).map fun g4 => (g1.1, g2.1, g3.1, g4)

/-- `header_pattern_3` at one position: the three capture groups. -/
def match3At (s : List Char) : Option (List Char × List Char × List Char) :=
  (dropLit "Worker Process Group ID:".toList s).bind fun s1 =>
  (matchDigitsComma s1).bind fun g1 =>
  (wsLit "Hostname:".toList g1.2).bind fun s3 =>
  (matchFieldComma s3).bind fun g2 =>
  (wsLit "Executor Kerberos ID:".toList g2.2).bind fun s5 =>
  (matchFieldEnd s5).map fun g3 => (g1.1, g2.1, g3)

/-- Python `str.strip()` over the ASCII whitespace set. -/
def pyStrip (g : List Char) : String :=
  String.mk (((g.dropWhile isPySpace).reverse.dropWhile isPySpace).reverse)

/-- The labeled header fields; every field absent is a valid state. -/
structure HeaderFields where
  worker_process_group_id : Option String
  hostname : Option String
  executor_kerberos_id : Option String
  requesting_kerberos_id : Option String
deriving DecidableEq

/-- Header extraction of `extract_metadata_from_log`: the strict
four-field pattern first, the lenient three-field pattern only when the
strict one finds no match, all-absent when neither matches.  Groups 2-4
are stripped as in the source; group 1 (digits) is stored unstripped. -/
def parse_header (full_content : String) : HeaderFields :=
  match searchFrom match4At full_content.toList with
  | some g =>
    { worker_process_group_id := some (String.mk g.1),
      hostname := some (pyStrip g.2.1),
      executor_kerberos_id := some (pyStrip g.2.2.1),
      requesting_kerberos_id := some (pyStrip g.2.2.2) }
  | none =>
    match searchFrom match3At full_content.toList with
    | some g =>
      { worker_process_group_id := some (String.mk g.1),
        hostname := some (pyStrip g.2.1),
        executor_kerberos_id := some (pyStrip g.2.2),
        requesting_kerberos_id := none }
    | none =>
      { worker_process_group_id := none, hostname := none,
        executor_kerberos_id := none, requesting_kerberos_id := none }

/-! ## Metadata assembly (`extract_metadata_from_log`, lines 373-444) -/

/-- `line.rstrip('\n\r')`. -/
def stripLine (s : String) : String :=
  String.mk ((s.toList.reverse.dropWhile (fun c => c = '\n' || c = '\r')).reverse)

/-- The metadata dictionary assembled for one log file.  Optional fields
are the dictionary keys that may be absent. -/
structure LogMetadata where
  file_path : String
  step_name : String
  report_date : Option String
  content : String
  worker_process_group_id : Option String
  hostname : Option String
  executor_kerberos_id : Option String
  requesting_kerberos_id : Option String
deriving DecidableEq

/-- `extract_metadata_from_log(log_file_path)`: the file is given by its
path (whose relevant pieces are the parent directory name and the stem)
and its raw line list as produced by `readlines()` (each line keeps its
trailing newline); `rawLines = none` models a missing or unreadable file,
for which the source returns `None`. -/
def extract_metadata_from_log (file_path parent_dir stem : String)
    (rawLines : Option (List String)) : Option LogMetadata :=
  match rawLines with
  | none => none
  | some lines =>
    let report_date := (search_date_id parent_dir).map (fun g => String.mk (g.take 10))
    let lines_stripped := lines.map stripLine
    let error_context_lines := extract_error_context lines_stripped 3
    let content :=
      if error_context_lines.isEmpty then
        "No error patterns detected in log file. Total lines: " ++ toString lines.length
      else String.intercalate "\n" error_context_lines
    let h := parse_header (String.join lines)
    some { file_path := file_path, step_name := stem, report_date := report_date,
           content := content,
           worker_process_group_id := h.worker_process_group_id,
           hostname := h.hostname,
           executor_kerberos_id := h.executor_kerberos_id,
           requesting_kerberos_id := h.requesting_kerberos_id }

/-! ## Database rows and the per-attachment file loop -/

/-- The Salesforce context merged into each record by
`process_attachment` (record id, attachment id, and the optional numeric
identifiers parsed from the subject line). -/
structure SfCtx where
  record_id : String
  attachment_id : String
  work_id : Option ℕ
  case_number : Option ℕ
deriving DecidableEq

/-- One row of the insert of `insert_log_to_database`
(`script.py` lines 449-470), column for column. -/
structure DbRow where
  executor_kerberos_id : Option String
  report_date : Option String
  step_name : Option String
  hostname : Option String
  requesting_kerberos_id : Option String
  content : Option String
  attachment_id : Option String
  record_id : Option String
  work_id : Option ℕ
  case_number : Option ℕ
deriving DecidableEq

/-- `insert_log_to_database(cursor, metadata)` against a cursor that does
not raise: appends one row built from the merged metadata (the Salesforce
fields come from the `merged_metadata` update in `process_attachment`) and
reports success.  The source returns `False` only when the cursor raises. -/
def insert_log_to_database (rows : List DbRow) (m : LogMetadata) (ctx : SfCtx) :
    List DbRow × Bool :=
  (rows ++ [{ executor_kerberos_id := m.executor_kerberos_id,
              report_date := m.report_date,
              step_name := some m.step_name,
              hostname := m.hostname,
              requesting_kerberos_id := m.requesting_kerberos_id,
              content := some m.content,
              attachment_id := some ctx.attachment_id,
              record_id := some ctx.record_id,
              work_id := ctx.work_id,
              case_number := ctx.case_number }], true)

/-- One log file as seen by the per-attachment loop. -/
structure FileJob where
  file_path : String
  parent_dir : String
  stem : String
  rawLines : Option (List String)
deriving DecidableEq

/-- Rows inserted so far plus the two counters of `process_attachment`. -/
structure BatchState where
  rows : List DbRow
  successful_logs : ℕ
  failed_logs : ℕ
deriving DecidableEq

/-- The body of the `for log_file_path in log_files` loop of
`process_attachment` (`script.py` lines 523-549). -/
def processLogFile (ctx : SfCtx) (st : BatchState) (f : FileJob) : BatchState :=
  match extract_metadata_from_log f.file_path f.parent_dir f.stem f.rawLines with
  | none => { st with failed_logs := st.failed_logs + 1 }
  | some m =>
    let r := insert_log_to_database st.rows m ctx
    if r.2 then
      { rows := r.1, successful_logs := st.successful_logs + 1,
        failed_logs := st.failed_logs }
    else { st with failed_logs := st.failed_logs + 1 }

/-- The whole file loop of one attachment. -/
def process_attachment_logs (ctx : SfCtx) (files : List FileJob)
    (st : BatchState) : BatchState :=
  files.foldl (processLogFile ctx) st

/-! ## Subject-line parsing (`main`, `script.py` lines 588-607) -/

/-- Numeric value of a digit run, as Python `int`. -/
def digitsToNat (ds : List Char) : ℕ :=
  ds.foldl (fun n c => n * 10 + (c.toNat - '0'.toNat)) 0

/-- `W-(\d+)` at one position (case-sensitive: the source passes no flag). -/
def matchWAt (s : List Char) : Option ℕ :=
  (dropLit "W-".toList s).bind fun s1 =>
  let d := maxRun isPyDigit s1
  if d.1.isEmpty then none else some (digitsToNat d.1)

/-- `Case[:\s]*(\d+)` at one position with `re.IGNORECASE` (which only
affects the literal `Case`; `[:\s]` and `\d` are case-free and disjoint
from each other, so the greedy runs are forced). -/
def matchCaseAt (s : List Char) : Option ℕ :=
  (dropLitCI "case".toList s).bind fun s1 =>
  let w := maxRun isColonSpace s1
  let d := maxRun isPyDigit w.2
  if d.1.isEmpty then none else some (digitsToNat d.1)

/-- `work_id` parsing of `main`: `None` for an empty subject
(`if subject:`), otherwise `int(match.group(1))` of the first match. -/
def searchW (subject : String) : Option ℕ :=
  if subject = "" then none else searchFrom matchWAt subject.toList

/-- `case_number` parsing of `main`. -/
def searchCaseNum (subject : String) : Option ℕ :=
  if subject = "" then none else searchFrom matchCaseAt subject.toList

/-- The `sf_metadata` pair `(work_id, case_number)` built in `main`. -/
def sf_metadata_of (subject : String) : Option ℕ × Option ℕ :=
  (searchW subject, searchCaseNum subject)

/-- Modelled from the spec: the claim's reading of the work-identifier
pattern — `W-(\d+)` applied case-insensitively (the source actually
applies it case-sensitively); used only to compare against `searchW`. -/
def matchWAtCI (s : List Char) : Option ℕ :=
  (dropLitCI "w-".toList s).bind fun s1 =>
  let d := maxRun isPyDigit s1
  if d.1.isEmpty then none else some (digitsToNat d.1)

/-- Modelled from the spec: case-insensitive `W-(\d+)` search. -/
def searchW_CI (subject : String) : Option ℕ :=
  if subject = "" then none else searchFrom matchWAtCI subject.toList

/-! ## The idempotency gate and the main loop -/

/-- Count of store rows for one attachment id: the semantics of
`SELECT COUNT(*) ... WHERE attachment_id = %s`. -/
def countAttachment (store : List DbRow) (id : String) : ℕ :=
  (store.filter (fun r => r.attachment_id = some id)).length

/-- `check_attachment_processed` (`script.py` lines 479-489): the lookup
outcome is the cursor round trip, `Except.error` modelling a raised
exception, for which the source's `except` branch returns `False`. -/
def check_attachment_processed (lookup : Except Unit ℕ) : Bool :=
  match lookup with
  | Except.ok c => decide (0 < c)
  | Except.error _ => false

/-- One attachment entry of the main loop. -/
structure AttachmentInfo where
  attachment_id : String
  record_id : String
  work_id : Option ℕ
  case_number : Option ℕ
deriving DecidableEq

/-- Store contents plus the statistics counters of `main`. -/
structure MainState where
  store : List DbRow
  processed : ℕ
  skipped : ℕ
  successful_logs : ℕ
  failed_logs : ℕ
deriving DecidableEq

/-- One iteration of the attachment loop of `main` (`script.py` lines
631-644), parameterised by the idempotency-lookup outcome and by the
download-extract-insert work `process_attachment` would perform (`proc`
returns the rows that work would commit and its two counters).  When the
gate answers `true` the source executes `continue`: `proc` is never
invoked. -/
def main_step (lookup : Except Unit ℕ)
    (proc : AttachmentInfo → List DbRow × ℕ × ℕ)
    (st : MainState) (att : AttachmentInfo) : MainState :=
  if check_attachment_processed lookup then
    { st with skipped := st.skipped + 1 }
  else
    let r := proc att
    { store := st.store ++ r.1,
      processed := st.processed + 1,
      skipped := st.skipped,
      successful_logs := st.successful_logs + r.2.1,
      failed_logs := st.failed_logs + r.2.2 }

/-- The main-loop iteration with the lookup the source performs: a
non-raising count query over the current store. -/
def main_loop_step (proc : AttachmentInfo → List DbRow × ℕ × ℕ)
    (st : MainState) (att : AttachmentInfo) : MainState :=
  main_step (Except.ok (countAttachment st.store att.attachment_id)) proc st att

/-! ## Safe archive extraction (`_safe_extract_tar`, `_safe_extract_zip`) -/

/-- An archive member: declared path and declared size (`member.name` /
`member.size` for tar, `member.filename` / `member.file_size` for zip). -/
structure ArchiveMember where
  name : String
  size : ℕ
deriving DecidableEq

/-- Case-sensitive substring test (Python `'..' in member.name`). -/
def containsSeq (pat : List Char) : List Char → Bool
  | [] => (dropLit pat []).isSome
  | c :: cs => (dropLit pat (c :: cs)).isSome || containsSeq pat cs

/-- `os.path.isabs` on POSIX: the path starts with a slash. -/
def isAbsPath (name : String) : Bool :=
  match name.toList with
  | [] => false
  | c :: _ => c = '/'

/-- The member filter shared by both extractors: skip absolute paths,
paths containing `..`, and members larger than `MAX_ATTACHMENT_SIZE`. -/
def member_allowed (maxSize : ℕ) (m : ArchiveMember) : Bool :=
  !(isAbsPath m.name) && !(containsSeq "..".toList m.name.toList) &&
  !(decide (maxSize < m.size))

/-- `_safe_extract_tar` (lines 276-283): the members actually extracted. -/
def _safe_extract_tar (maxSize : ℕ) (members : List ArchiveMember) :
    List ArchiveMember :=
  members.filter (member_allowed maxSize)

/-- `_safe_extract_zip` (lines 285-292): identical filter over zip infos. -/
def _safe_extract_zip (maxSize : ℕ) (members : List ArchiveMember) :
    List ArchiveMember :=
  members.filter (member_allowed maxSize)

/-- Split a path into components at `/` (the path model for containment). -/
def splitSlash : List Char → List (List Char)
  | [] => [[]]
  | c :: cs =>
    if c = '/' then [] :: splitSlash cs
    else
      match splitSlash cs with
      | [] => [[c]]
      | h :: t => (c :: h) :: t

/-- Path normalisation over components: drop empty and `.` components,
let `..` pop the previous component. -/
def normFold (acc : List (List Char)) (parts : List (List Char)) :
    List (List Char) :=
  parts.foldl
    (fun a p =>
      if p = [] ∨ p = ['.'] then a
      else if p = ['.', '.'] then a.dropLast
      else a ++ [p]) acc

/-- The resolved path of a member extracted under `dest`. -/
def resolveUnder (dest : List (List Char)) (name : String) : List (List Char) :=
  normFold dest (splitSlash name.toList)

/-! ## Auxiliary definitions used only by the statements and proofs -/

/-- Componentwise order on windows: the sorted window list is pairwise in
this order (starts and ends both nondecreasing). -/
def winLE (a b : ℕ × ℕ) : Prop :=
  a.1 ≤ b.1 ∧ a.2 ≤ b.2

/-- `SEP`-prefixed concatenation of the chunks after the first window. -/
def sepTail (chunks : List (List String)) : List String :=
  chunks.foldr (fun chunk acc => SEP :: (chunk ++ acc)) []

/-- Window contents joined with exactly one separator between consecutive
chunks and none before the first — the shape the specification describes
for the concatenated output. -/
def joinSep : List (List String) → List String
  | [] => []
  | chunk :: rest => chunk ++ sepTail rest

/-- The context pipeline run from an externally discovered list of
matching indices: the list is deduplicated and sorted (Python
`sorted(set(...))`) before windows are built, so any discovery order of
the same index set yields the same output. -/
def extract_from_indices (lines : List String) (c : ℕ) (idxs : List ℕ) : List String :=
  let sorted := Finset.sort (· ≤ ·) idxs.toFinset
  if sorted = [] then []
  else contextFold lines (merged_ranges (sorted.map (windowOf lines.length c)))

/-- A 14-line log with error matches exactly at indices 5 and 9. -/
def exLines14 : List String :=
  ["ok", "ok", "ok", "ok", "ok", "ERROR at five", "ok", "ok", "ok",
   "ERROR at nine", "ok", "ok", "ok", "ok"]

/-- A 104-line log with error matches exactly at indices 0 and 100. -/
def exLines104 : List String :=
  "ERROR zero" :: (List.replicate 99 "ok" ++ "ERROR hundred" :: List.replicate 3 "ok")

/-- A log text containing only the three lenient header fields. -/
def exHeader3 : String :=
  "Worker Process Group ID: 7, Hostname: h1, Executor Kerberos ID: u1"

/-- A store row carrying attachment id `"A00"`, for concrete instances. -/
def exRow : DbRow :=
  { executor_kerberos_id := none, report_date := none, step_name := none,
    hostname := none, requesting_kerberos_id := none, content := none,
    attachment_id := some "A00", record_id := none, work_id := none,
    case_number := none }

/-! ## Lemmas about the merge loop -/

theorem mergeStep_concat (acc : List (ℕ × ℕ)) (cur r : ℕ × ℕ) :
    mergeStep (acc ++ [cur]) r =
      if r.1 ≤ cur.2 then acc ++ [(cur.1, max cur.2 r.2)] else acc ++ [cur] ++ [r] := by
  simp [mergeStep, List.getLast?_concat]

theorem foldl_mergeStep :
    ∀ (rs : List (ℕ × ℕ)) (acc : List (ℕ × ℕ)) (cur : ℕ × ℕ),
      List.foldl mergeStep (acc ++ [cur]) rs = acc ++ mergeGo cur rs := by
  intro rs
  induction rs with
  | nil => intro acc cur; simp [mergeGo]
  | cons r rs ih =>
    intro acc cur
    rw [List.foldl_cons, mergeStep_concat]
    by_cases h : r.1 ≤ cur.2
    · rw [if_pos h, ih acc (cur.1, max cur.2 r.2)]
      simp [mergeGo, h]
    · rw [if_neg h, ih (acc ++ [cur]) r]
      simp [mergeGo, h]

theorem merged_ranges_cons (r : ℕ × ℕ) (rs : List (ℕ × ℕ)) :
    merged_ranges (r :: rs) = mergeGo r rs := by
  have h0 : mergeStep [] r = [r] := rfl
  have h := foldl_mergeStep rs [] r
  simpa [merged_ranges, h0] using h

theorem mergeGo_countP (j : ℕ) :
    ∀ (rs : List (ℕ × ℕ)) (cur : ℕ × ℕ), List.Pairwise winLE (cur :: rs) →
      (mergeGo cur rs).countP (fun r => decide (r.1 ≤ j ∧ j < r.2)) =
        if (cur.1 ≤ j ∧ j < cur.2) ∨ (∃ r ∈ rs, r.1 ≤ j ∧ j < r.2) then 1 else 0 := by
  intro rs
  induction rs with
  | nil =>
    intro cur _
    by_cases h : cur.1 ≤ j ∧ j < cur.2 <;>
      simp [mergeGo, List.countP_cons, h]
  | cons r rs ih =>
    intro cur hp
    rcases List.pairwise_cons.mp hp with ⟨hcur, hp1⟩
    have hcr : winLE cur r := hcur r (by simp)
    rcases List.pairwise_cons.mp hp1 with ⟨hr, _⟩
    by_cases h : r.1 ≤ cur.2
    · rw [show mergeGo cur (r :: rs) = mergeGo (cur.1, max cur.2 r.2) rs by
        simp [mergeGo, h]]
      rw [Nat.max_eq_right hcr.2]
      have hnew : List.Pairwise winLE ((cur.1, r.2) :: rs) := by
        refine List.pairwise_cons.mpr ⟨?_, (List.pairwise_cons.mp hp1).2⟩
        intro x hx
        exact ⟨Nat.le_trans hcr.1 (hr x hx).1, (hr x hx).2⟩
      rw [ih (cur.1, r.2) hnew]
      refine if_congr ?_ rfl rfl
      constructor
      · rintro (⟨h1, h2⟩ | ⟨x, hx, hxj⟩)
        · by_cases hjc : j < cur.2
          · exact Or.inl ⟨h1, hjc⟩
          · refine Or.inr ⟨r, by simp, ?_⟩
            have := hcr.1
            omega
        · exact Or.inr ⟨x, by simp [hx], hxj⟩
      · rintro (⟨h1, h2⟩ | ⟨x, hx, hxj⟩)
        · refine Or.inl ⟨h1, ?_⟩
          have := hcr.2
          omega
        · rcases List.mem_cons.mp hx with rfl | hx'
          · refine Or.inl ⟨?_, hxj.2⟩
            have := hcr.1
            omega
          · exact Or.inr ⟨x, hx', hxj⟩
    · rw [show mergeGo cur (r :: rs) = cur :: mergeGo r rs by simp [mergeGo, h]]
      rw [List.countP_cons, ih r hp1]
      by_cases hc : cur.1 ≤ j ∧ j < cur.2
      · have hnr : ¬(r.1 ≤ j ∧ j < r.2) := by omega
        have hnrs : ¬(∃ x ∈ rs, x.1 ≤ j ∧ j < x.2) := by
          rintro ⟨x, hx, hxj⟩
          have h1 := (hr x hx).1
          omega
        have hnone : ¬((r.1 ≤ j ∧ j < r.2) ∨ ∃ x ∈ rs, x.1 ≤ j ∧ j < x.2) := by
          rintro (hh | hh)
          · exact hnr hh
          · exact hnrs hh
        rw [if_neg hnone, if_pos (Or.inl hc)]
        simp [hc]
      · have hcur0 : (if (fun r => decide (r.1 ≤ j ∧ j < r.2)) cur = true then 1 else 0) = 0 := by
          simp [hc]
        rw [hcur0, Nat.add_zero]
        refine if_congr ?_ rfl rfl
        constructor
        · rintro (h1 | ⟨x, hx, hxj⟩)
          · exact Or.inr ⟨r, by simp, h1⟩
          · exact Or.inr ⟨x, by simp [hx], hxj⟩
        · rintro (h1 | ⟨x, hx, hxj⟩)
          · exact absurd h1 hc
          · rcases List.mem_cons.mp hx with rfl | hx'
            · exact Or.inl hxj
            · exact Or.inr ⟨x, hx', hxj⟩

/-! ## Lemmas about the window pipeline -/

theorem errorIndices_sorted (lines : List String) :
    List.Pairwise (· < ·) (errorIndices lines) :=
  (List.pairwise_lt_range lines.length).sublist (List.filter_sublist _)

theorem mem_errorIndices {lines : List String} {i : ℕ} :
    i ∈ errorIndices lines ↔ i < lines.length ∧ lineMatches (lines.getD i "") = true := by
  simp [errorIndices, List.mem_filter, List.mem_range]

theorem rangesOf_pairwise (lines : List String) (c : ℕ) :
    List.Pairwise winLE (rangesOf lines c) := by
  refine List.pairwise_map.mpr ((errorIndices_sorted lines).imp ?_)
  intro a b hab
  constructor
  · exact Nat.sub_le_sub_right (Nat.le_of_lt hab) c
  · exact min_le_min (Nat.le_refl _) (by omega)

theorem count_range' (j s n : ℕ) :
    (List.range' s n).count j = if s ≤ j ∧ j < s + n then 1 else 0 := by
  by_cases h : s ≤ j ∧ j < s + n
  · rw [if_pos h]
    exact List.count_eq_one_of_mem (List.nodup_range' s n) (List.mem_range'_1.mpr h)
  · rw [if_neg h]
    exact List.count_eq_zero_of_not_mem (fun hm => h (List.mem_range'_1.mp hm))

theorem count_emitted_eq_countP (lines : List String) (c j : ℕ) :
    (emittedIndices lines c).count j =
      (merged_ranges (rangesOf lines c)).countP (fun r => decide (r.1 ≤ j ∧ j < r.2)) := by
  unfold emittedIndices
  generalize merged_ranges (rangesOf lines c) = rs
  induction rs with
  | nil => simp
  | cons r rs ih =>
    rw [List.foldr_cons, List.count_append, List.countP_cons, ih,
      count_range' j r.1 (r.2 - r.1)]
    by_cases h : r.1 ≤ j ∧ j < r.2
    · rw [if_pos (by omega), if_pos (by simpa using h)]
      omega
    · rw [if_neg (by omega), if_neg (by simpa using h)]
      omega

theorem countP_merged_eq_one (lines : List String) (c i j : ℕ)
    (hi : i ∈ errorIndices lines)
    (hw : (windowOf lines.length c i).1 ≤ j ∧ j < (windowOf lines.length c i).2) :
    (merged_ranges (rangesOf lines c)).countP (fun r => decide (r.1 ≤ j ∧ j < r.2)) = 1 := by
  have hmem : windowOf lines.length c i ∈ rangesOf lines c :=
    List.mem_map_of_mem (windowOf lines.length c) hi
  have hp := rangesOf_pairwise lines c
  cases hrs : rangesOf lines c with
  | nil => rw [hrs] at hmem; cases hmem
  | cons r0 rest =>
    rw [hrs] at hmem hp
    rw [merged_ranges_cons, mergeGo_countP j rest r0 hp]
    refine if_pos ?_
    rcases List.mem_cons.mp hmem with he | hm
    · exact Or.inl (he ▸ hw)
    · exact Or.inr ⟨_, hm, hw⟩

theorem errorIndices_nodup (lines : List String) : (errorIndices lines).Nodup :=
  (errorIndices_sorted lines).imp Nat.ne_of_lt

theorem sort_errorIndices (lines : List String) :
    Finset.sort (· ≤ ·) (errorIndices lines).toFinset = errorIndices lines :=
  (List.toFinset_sort (· ≤ ·) (errorIndices_nodup lines)).mpr
    ((errorIndices_sorted lines).imp Nat.le_of_lt)

/-- C3: error-context extraction is loss-free within the radius and
duplication-free — for every line index `i` matching an error pattern and
every index `j` in `[i-radius, i+radius]` intersected with the file
bounds, the output draws the line at `j` exactly once — and the result
depends only on the SET of matching indices, not on the order in which
they are discovered. -/
theorem error_context_lossfree_orderfree :
    (∀ (lines : List String) (c i j : ℕ),
        i < lines.length → lineMatches (lines.getD i "") = true →
        i - c ≤ j → j ≤ i + c → j < lines.length →
        (emittedIndices lines c).count j = 1)
    ∧ (∀ (lines : List String) (c : ℕ) (idxs : List ℕ),
        idxs.toFinset = (errorIndices lines).toFinset →
        extract_from_indices lines c idxs = extract_error_context lines c) := by
  constructor
  · intro lines c i j hi hm h1 h2 hj
    rw [count_emitted_eq_countP]
    refine countP_merged_eq_one lines c i j (mem_errorIndices.mpr ⟨hi, hm⟩) ?_
    refine ⟨by simpa [windowOf] using h1, ?_⟩
    simp only [windowOf]
    exact lt_min hj (by omega)
  · intro lines c idxs hset
    simp only [extract_from_indices, extract_error_context, rangesOf]
    rw [hset, sort_errorIndices]

/-- Witness for the loss-free part of C3: in the 14-line example, index 5
matches and line 4 of its window appears exactly once. -/
theorem error_context_lossfree_witness :
    (5 : ℕ) < exLines14.length ∧ lineMatches (exLines14.getD 5 "") = true ∧
      (emittedIndices exLines14 3).count 4 = 1 :=
  ⟨by decide, by decide,
    error_context_lossfree_orderfree.1 exLines14 3 5 4 (by decide) (by decide)
      (by decide) (by decide) (by decide)⟩

/-- C4: for every matching index the constructed window is
`[i-radius, i+radius+1)` clamped to `[0, lineCount)`; the window list is
sorted by start index; a window is merged into the running window exactly
when its start is `≤` the running window's end; and with radius 3 and
matches at indices 5 and 9 the windows `[2,9)` and `[6,13)` merge into
`[2,13)`. -/
theorem window_construction_and_merge :
    (∀ (lines : List String) (c i j : ℕ), i ∈ errorIndices lines →
        (((windowOf lines.length c i).1 ≤ j ∧ j < (windowOf lines.length c i).2) ↔
          (i - c ≤ j ∧ j < i + c + 1 ∧ j < lines.length)))
    ∧ (∀ (s₁ e₁ s₂ e₂ : ℕ) (rs : List (ℕ × ℕ)),
        (s₂ ≤ e₁ →
          merged_ranges ((s₁, e₁) :: (s₂, e₂) :: rs)
            = merged_ranges ((s₁, max e₁ e₂) :: rs))
        ∧ (e₁ < s₂ →
          merged_ranges ((s₁, e₁) :: (s₂, e₂) :: rs)
            = (s₁, e₁) :: merged_ranges ((s₂, e₂) :: rs)))
    ∧ (∀ (lines : List String) (c : ℕ),
        List.Pairwise (fun a b : ℕ × ℕ => a.1 ≤ b.1) (rangesOf lines c))
    ∧ (rangesOf exLines14 3 = [(2, 9), (6, 13)]
        ∧ merged_ranges (rangesOf exLines14 3) = [(2, 13)]) := by
  refine ⟨?_, ?_, ?_, by decide, by decide⟩
  · intro lines c i j _
    simp only [windowOf]
    constructor
    · rintro ⟨ha, hb⟩
      have hb1 := lt_of_lt_of_le hb (min_le_left _ _)
      have hb2 := lt_of_lt_of_le hb (min_le_right _ _)
      exact ⟨ha, hb2, hb1⟩
    · rintro ⟨ha, hb, hc⟩
      exact ⟨ha, lt_min hc hb⟩
  · intro s₁ e₁ s₂ e₂ rs
    constructor
    · intro h
      rw [merged_ranges_cons, merged_ranges_cons]
      simp [mergeGo, h]
    · intro h
      rw [merged_ranges_cons, merged_ranges_cons]
      simp [mergeGo, Nat.not_le.mpr h]
  · intro lines c
    exact (rangesOf_pairwise lines c).imp (fun h => h.1)

/-- Witness for C4: the window characterisation instantiated in the
14-line example at matching index 5 and line index 2. -/
theorem window_construction_witness :
    (5 : ℕ) ∈ errorIndices exLines14 ∧
      (((windowOf exLines14.length 3 5).1 ≤ 2 ∧ 2 < (windowOf exLines14.length 3 5).2) ↔
        (5 - 3 ≤ 2 ∧ 2 < 5 + 3 + 1 ∧ 2 < exLines14.length)) :=
  ⟨by decide, window_construction_and_merge.1 exLines14 3 5 2 (by decide)⟩

/-! ## Lemmas about the separator structure of the output -/

theorem foldl_context (lines : List String) :
    ∀ (rs : List (ℕ × ℕ)) (acc : List String), acc ≠ [] →
      List.foldl
        (fun acc r => (if acc.isEmpty then acc else acc ++ [SEP]) ++ sliceLines lines r)
        acc rs = acc ++ sepTail (rs.map (sliceLines lines)) := by
  intro rs
  induction rs with
  | nil => intro acc _; simp [sepTail]
  | cons r rs ih =>
    intro acc hacc
    rw [List.foldl_cons, if_neg (by simpa using hacc),
      ih ((acc ++ [SEP]) ++ sliceLines lines r) (by simp)]
    simp [sepTail, List.append_assoc]

theorem contextFold_cons_eq (lines : List String) (r : ℕ × ℕ) (rs : List (ℕ × ℕ))
    (h : sliceLines lines r ≠ []) :
    contextFold lines (r :: rs) = joinSep ((r :: rs).map (sliceLines lines)) := by
  unfold contextFold
  rw [List.foldl_cons,
    show (if ([] : List String).isEmpty then ([] : List String) else [] ++ [SEP])
        ++ sliceLines lines r = sliceLines lines r by simp,
    foldl_context lines rs (sliceLines lines r) h]
  simp [joinSep]

theorem count_sepTail (chunks : List (List String))
    (h : ∀ chunk ∈ chunks, SEP ∉ chunk) :
    (sepTail chunks).count SEP = chunks.length := by
  induction chunks with
  | nil => simp [sepTail]
  | cons x xs ih =>
    have hx : SEP ∉ x := h x (by simp)
    have hxs := ih (fun ch hc => h ch (by simp [hc]))
    show (SEP :: (x ++ sepTail xs)).count SEP = xs.length + 1
    simp [List.count_cons, List.count_append, List.count_eq_zero.mpr hx, hxs]

theorem count_joinSep (chunks : List (List String))
    (h : ∀ chunk ∈ chunks, SEP ∉ chunk) :
    (joinSep chunks).count SEP = chunks.length - 1 := by
  cases chunks with
  | nil => simp [joinSep]
  | cons x xs =>
    have hx : SEP ∉ x := h x (by simp)
    show (x ++ sepTail xs).count SEP = (xs.length + 1) - 1
    rw [List.count_append, List.count_eq_zero.mpr hx,
      count_sepTail xs (fun ch hc => h ch (by simp [hc]))]
    omega

theorem mergeGo_ne_nil (cur : ℕ × ℕ) (rs : List (ℕ × ℕ)) : mergeGo cur rs ≠ [] := by
  induction rs generalizing cur with
  | nil => simp [mergeGo]
  | cons r rs ih =>
    by_cases h : r.1 ≤ cur.2
    · simpa [mergeGo, h] using ih (cur.1, max cur.2 r.2)
    · simp [mergeGo, h]

theorem mergeGo_bounds (n : ℕ) :
    ∀ (rs : List (ℕ × ℕ)) (cur : ℕ × ℕ),
      cur.1 < cur.2 → cur.2 ≤ n →
      (∀ r ∈ rs, r.1 < r.2 ∧ r.2 ≤ n) →
      ∀ r ∈ mergeGo cur rs, r.1 < r.2 ∧ r.2 ≤ n := by
  intro rs
  induction rs with
  | nil =>
    intro cur h1 h2 _ r hr
    simp only [mergeGo, List.mem_singleton] at hr
    subst hr
    exact ⟨h1, h2⟩
  | cons q rs ih =>
    intro cur h1 h2 hall r hr
    have hq := hall q (by simp)
    by_cases h : q.1 ≤ cur.2
    · rw [show mergeGo cur (q :: rs) = mergeGo (cur.1, max cur.2 q.2) rs by
        simp [mergeGo, h]] at hr
      refine ih (cur.1, max cur.2 q.2) ?_ ?_ (fun x hx => hall x (by simp [hx])) r hr
      · exact lt_of_lt_of_le h1 (le_max_left _ _)
      · exact max_le h2 hq.2
    · rw [show mergeGo cur (q :: rs) = cur :: mergeGo q rs by simp [mergeGo, h]] at hr
      rcases List.mem_cons.mp hr with rfl | hr'
      · exact ⟨h1, h2⟩
      · exact ih q hq.1 hq.2 (fun x hx => hall x (by simp [hx])) r hr'

theorem rangesOf_bounds (lines : List String) (c : ℕ) :
    ∀ r ∈ rangesOf lines c, r.1 < r.2 ∧ r.2 ≤ lines.length := by
  intro r hr
  rcases List.mem_map.mp hr with ⟨i, hi, rfl⟩
  have hlt := (mem_errorIndices.mp hi).1
  simp only [windowOf]
  exact ⟨lt_min (by omega) (by omega), min_le_left _ _⟩

theorem sliceLines_ne_nil {lines : List String} {r : ℕ × ℕ}
    (h1 : r.1 < r.2) (h2 : r.1 < lines.length) : sliceLines lines r ≠ [] := by
  have hpos : 0 < (sliceLines lines r).length := by
    rw [sliceLines, List.length_take, List.length_drop]
    exact lt_min (by omega) (by omega)
  exact List.ne_nil_of_length_pos hpos

theorem sliceLines_sub {lines : List String} {r : ℕ × ℕ} {x : String}
    (hx : x ∈ sliceLines lines r) : x ∈ lines :=
  ((List.take_sublist _ _).trans (List.drop_sublist _ _)).subset hx

/-- C5: the output lists the content of each merged window in start
order, joined with exactly one separator between consecutive disjoint
merged windows, none inside a window and none before the first; for the
two non-adjacent matches at indices 0 and 100 with radius 3 the output
contains exactly one separator. -/
theorem error_context_separator_shape :
    (∀ (lines : List String) (c : ℕ), SEP ∉ lines → errorIndices lines ≠ [] →
        extract_error_context lines c
          = joinSep ((merged_ranges (rangesOf lines c)).map (sliceLines lines))
        ∧ (extract_error_context lines c).count SEP
          = (merged_ranges (rangesOf lines c)).length - 1)
    ∧ ((extract_error_context exLines104 3).count SEP = 1
        ∧ (merged_ranges (rangesOf exLines104 3)).length = 2) := by
  constructor
  · intro lines c hsep hne
    have hbounds := rangesOf_bounds lines c
    obtain ⟨r0, rest, hrs⟩ : ∃ r0 rest, rangesOf lines c = r0 :: rest := by
      cases hrs : rangesOf lines c with
      | nil =>
        exact absurd (by simpa [rangesOf] using hrs) hne
      | cons r0 rest => exact ⟨r0, rest, rfl⟩
    rw [hrs] at hbounds
    have h0 := hbounds r0 (by simp)
    have hmb : ∀ r ∈ merged_ranges (rangesOf lines c), r.1 < r.2 ∧ r.2 ≤ lines.length := by
      rw [hrs, merged_ranges_cons]
      exact mergeGo_bounds lines.length rest r0 h0.1 h0.2
        (fun x hx => hbounds x (by simp [hx]))
    obtain ⟨m0, ms, hm⟩ : ∃ m0 ms, merged_ranges (rangesOf lines c) = m0 :: ms := by
      cases hmm : merged_ranges (rangesOf lines c) with
      | nil =>
        rw [hrs, merged_ranges_cons] at hmm
        exact absurd hmm (mergeGo_ne_nil r0 rest)
      | cons m0 ms => exact ⟨m0, ms, rfl⟩
    have hm0 := hmb m0 (by rw [hm]; simp)
    have hslice : sliceLines lines m0 ≠ [] :=
      sliceLines_ne_nil hm0.1 (lt_of_lt_of_le hm0.1 hm0.2)
    have hEE : extract_error_context lines c
        = contextFold lines (merged_ranges (rangesOf lines c)) := by
      unfold extract_error_context
      rw [if_neg hne]
    have hfree : ∀ chunk ∈ (merged_ranges (rangesOf lines c)).map (sliceLines lines),
        SEP ∉ chunk := by
      intro chunk hc hmem
      rcases List.mem_map.mp hc with ⟨r, _, rfl⟩
      exact hsep (sliceLines_sub hmem)
    constructor
    · rw [hEE, hm, contextFold_cons_eq lines m0 ms hslice]
    · rw [hEE, hm, contextFold_cons_eq lines m0 ms hslice, ← hm,
        count_joinSep _ hfree, List.length_map]
  · exact ⟨by decide, by decide⟩

/-- Witness for C5: the general separator-count statement applied to the
104-line example, whose two merged windows give exactly one separator. -/
theorem error_context_separator_witness :
    SEP ∉ exLines104 ∧ errorIndices exLines104 ≠ [] ∧
      (extract_error_context exLines104 3).count SEP
        = (merged_ranges (rangesOf exLines104 3)).length - 1 :=
  ⟨by decide, by decide,
    (error_context_separator_shape.1 exLines104 3 (by decide) (by decide)).2⟩

/-! ## The placeholder for logs without error matches -/

theorem errorIndices_nil_of_no_match {lines : List String}
    (h : ∀ l ∈ lines, lineMatches l = false) : errorIndices lines = [] := by
  unfold errorIndices
  refine List.filter_eq_nil_iff.mpr ?_
  intro i hi
  have hlt : i < lines.length := List.mem_range.mp hi
  have hmem : lines[i]?.getD "" ∈ lines := by
    rw [List.getElem?_eq_getElem hlt]
    exact List.getElem_mem hlt
  simp [h _ hmem]

/-- C2: a log file in which no line matches any error pattern yields a
record whose content is the single descriptive placeholder reporting the
file's line count — nonempty content — and the file loop counts the file
as a success, not a failure. -/
theorem no_error_placeholder :
    ∀ (fp pd stem : String) (rawLines : List String),
      (∀ l ∈ rawLines.map stripLine, lineMatches l = false) →
      ∃ m, extract_metadata_from_log fp pd stem (some rawLines) = some m
        ∧ m.content = "No error patterns detected in log file. Total lines: "
            ++ toString rawLines.length
        ∧ m.content ≠ ""
        ∧ ∀ (ctx : SfCtx) (st : BatchState),
            (processLogFile ctx st ⟨fp, pd, stem, some rawLines⟩).successful_logs
              = st.successful_logs + 1
            ∧ (processLogFile ctx st ⟨fp, pd, stem, some rawLines⟩).failed_logs
              = st.failed_logs
            ∧ (processLogFile ctx st ⟨fp, pd, stem, some rawLines⟩).rows.length
              = st.rows.length + 1 := by
  intro fp pd stem raw h
  have hctx : extract_error_context (raw.map stripLine) 3 = [] := by
    unfold extract_error_context
    rw [if_pos (errorIndices_nil_of_no_match h)]
  have hext : extract_metadata_from_log fp pd stem (some raw)
      = some { file_path := fp, step_name := stem,
               report_date := (search_date_id pd).map (fun g => String.mk (g.take 10)),
               content := "No error patterns detected in log file. Total lines: "
                 ++ toString raw.length,
               worker_process_group_id := (parse_header (String.join raw)).worker_process_group_id,
               hostname := (parse_header (String.join raw)).hostname,
               executor_kerberos_id := (parse_header (String.join raw)).executor_kerberos_id,
               requesting_kerberos_id := (parse_header (String.join raw)).requesting_kerberos_id } := by
    simp [extract_metadata_from_log, hctx]
  refine ⟨_, hext, rfl, ?_, ?_⟩
  · intro hcon
    have hd := congrArg String.data hcon
    rw [String.data_append] at hd
    have hnil : ("No error patterns detected in log file. Total lines: ").data
        ++ (toString raw.length).data = [] := hd
    exact absurd (List.append_eq_nil.mp hnil).1 (by decide)
  · intro ctx st
    simp [processLogFile, hext, insert_log_to_database]

/-- Witness for C2: a two-line log with no error matches. -/
theorem no_error_placeholder_witness :
    ∃ m, extract_metadata_from_log "p" "d" "s" (some ["hello\n", "world"]) = some m
      ∧ m.content = "No error patterns detected in log file. Total lines: "
          ++ toString (["hello\n", "world"] : List String).length
      ∧ m.content ≠ ""
      ∧ ∀ (ctx : SfCtx) (st : BatchState),
          (processLogFile ctx st ⟨"p", "d", "s", some ["hello\n", "world"]⟩).successful_logs
            = st.successful_logs + 1
          ∧ (processLogFile ctx st ⟨"p", "d", "s", some ["hello\n", "world"]⟩).failed_logs
            = st.failed_logs
          ∧ (processLogFile ctx st ⟨"p", "d", "s", some ["hello\n", "world"]⟩).rows.length
            = st.rows.length + 1 :=
  no_error_placeholder "p" "d" "s" ["hello\n", "world"] (by decide)

/-! ## Header parsing -/

theorem parse_header_eq4 {text : String}
    {g : List Char × List Char × List Char × List Char}
    (h4 : searchFrom match4At text.toList = some g) :
    parse_header text = ⟨some (String.mk g.1), some (pyStrip g.2.1),
      some (pyStrip g.2.2.1), some (pyStrip g.2.2.2)⟩ := by
  unfold parse_header
  rw [h4]

theorem parse_header_eq3 {text : String}
    {g : List Char × List Char × List Char}
    (h4 : searchFrom match4At text.toList = none)
    (h3 : searchFrom match3At text.toList = some g) :
    parse_header text = ⟨some (String.mk g.1), some (pyStrip g.2.1),
      some (pyStrip g.2.2), none⟩ := by
  unfold parse_header
  rw [h4, h3]

theorem parse_header_eq_none {text : String}
    (h4 : searchFrom match4At text.toList = none)
    (h3 : searchFrom match3At text.toList = none) :
    parse_header text = ⟨none, none, none, none⟩ := by
  unfold parse_header
  rw [h4, h3]

/-- C6: header parsing is total — every text yields a `HeaderFields`
value, of one of three shapes: all four fields set (strict pattern), the
first three set with `requesting_kerberos_id` absent (lenient fallback,
consulted only when the strict pattern finds no match), or all absent;
and the record is still assembled whatever the header outcome. -/
theorem header_parsing_total :
    ∀ (text : String),
      ((∃ a b c d, parse_header text
          = ⟨some a, some b, some c, some d⟩)
        ∨ (∃ a b c, parse_header text = ⟨some a, some b, some c, none⟩)
        ∨ parse_header text = ⟨none, none, none, none⟩)
      ∧ (∀ g, searchFrom match4At text.toList = some g →
          parse_header text = ⟨some (String.mk g.1), some (pyStrip g.2.1),
            some (pyStrip g.2.2.1), some (pyStrip g.2.2.2)⟩)
      ∧ (searchFrom match4At text.toList = none →
          ∀ g, searchFrom match3At text.toList = some g →
            parse_header text = ⟨some (String.mk g.1), some (pyStrip g.2.1),
              some (pyStrip g.2.2), none⟩)
      ∧ (searchFrom match4At text.toList = none →
          searchFrom match3At text.toList = none →
          parse_header text = ⟨none, none, none, none⟩)
      ∧ (∀ (fp pd stem : String) (rawLines : List String),
          (extract_metadata_from_log fp pd stem (some rawLines)).isSome = true) := by
  intro text
  refine ⟨?_, ?_, ?_, ?_, ?_⟩
  · cases h4 : searchFrom match4At text.toList with
    | some g => exact Or.inl ⟨_, _, _, _, parse_header_eq4 h4⟩
    | none =>
      cases h3 : searchFrom match3At text.toList with
      | some g => exact Or.inr (Or.inl ⟨_, _, _, parse_header_eq3 h4 h3⟩)
      | none => exact Or.inr (Or.inr (parse_header_eq_none h4 h3))
  · intro g h4
    exact parse_header_eq4 h4
  · intro h4 g h3
    exact parse_header_eq3 h4 h3
  · intro h4 h3
    exact parse_header_eq_none h4 h3
  · intro fp pd stem rawLines
    simp [extract_metadata_from_log]

/-- Witness for C6: a header with only the three lenient fields — the
strict pattern fails, the fallback sets the three fields and leaves
`requesting_kerberos_id` absent. -/
theorem header_parsing_witness :
    searchFrom match4At exHeader3.toList = none ∧
      parse_header exHeader3
        = ⟨some "7", some "h1", some "u1", none⟩ := by
  have h := (header_parsing_total exHeader3).2.2.1 (by decide)
    (['7'], ['h', '1'], ['u', '1']) (by decide)
  exact ⟨by decide, h.trans (by decide)⟩

/-! ## Report-date derivation -/

/-- Counterexample to C1: for the parent directory name `"report_foo"`,
which does not match the date pattern, record assembly does NOT fail —
the record is assembled with an absent `report_date`, the insert succeeds,
and the file is counted as a success, so the record IS persisted. -/
theorem date_mismatch_record_persisted :
    Option.map LogMetadata.report_date
        (extract_metadata_from_log "p" "report_foo" "STEP" (some ["hello\n"]))
      = some none
    ∧ (process_attachment_logs ⟨"rid", "aid", none, none⟩
        [⟨"p", "report_foo", "STEP", some ["hello\n"]⟩] ⟨[], 0, 0⟩).successful_logs = 1
    ∧ (process_attachment_logs ⟨"rid", "aid", none, none⟩
        [⟨"p", "report_foo", "STEP", some ["hello\n"]⟩] ⟨[], 0, 0⟩).rows.length = 1
    ∧ (process_attachment_logs ⟨"rid", "aid", none, none⟩
        [⟨"p", "report_foo", "STEP", some ["hello\n"]⟩] ⟨[], 0, 0⟩).failed_logs = 0 := by
  exact ⟨by decide, by decide, by decide, by decide⟩

/-- C1 amended: when the parent directory name does not match the date
pattern, the record's `report_date` is simply absent and the record is
still assembled, inserted and counted as a success; every sibling file is
still processed (each file adds exactly one to the success or failure
count); when the pattern matches, `report_date` is the first 10
characters of the captured date-time token. -/
theorem report_date_amended :
    (∀ (fp pd stem : String) (raw : List String),
        (search_date_id pd = none →
          Option.map LogMetadata.report_date
              (extract_metadata_from_log fp pd stem (some raw)) = some none
          ∧ ∀ (ctx : SfCtx) (st : BatchState),
              (processLogFile ctx st ⟨fp, pd, stem, some raw⟩).successful_logs
                = st.successful_logs + 1
              ∧ (processLogFile ctx st ⟨fp, pd, stem, some raw⟩).rows.length
                = st.rows.length + 1
              ∧ (processLogFile ctx st ⟨fp, pd, stem, some raw⟩).failed_logs
                = st.failed_logs)
        ∧ (∀ g, search_date_id pd = some g →
            Option.map LogMetadata.report_date
                (extract_metadata_from_log fp pd stem (some raw))
              = some (some (String.mk (g.take 10)))))
    ∧ (∀ (ctx : SfCtx) (files : List FileJob) (st : BatchState),
        (process_attachment_logs ctx files st).successful_logs
            + (process_attachment_logs ctx files st).failed_logs
          = st.successful_logs + st.failed_logs + files.length) := by
  constructor
  · intro fp pd stem raw
    constructor
    · intro hnone
      constructor
      · simp [extract_metadata_from_log, hnone]
      · intro ctx st
        refine ⟨?_, ?_, ?_⟩ <;>
          simp [processLogFile, extract_metadata_from_log, insert_log_to_database]
    · intro g hg
      simp [extract_metadata_from_log, hg]
  · intro ctx files
    induction files with
    | nil => intro st; simp [process_attachment_logs]
    | cons f fs ih =>
      intro st
      have hstep : process_attachment_logs ctx (f :: fs) st
          = process_attachment_logs ctx fs (processLogFile ctx st f) := rfl
      rw [hstep, ih (processLogFile ctx st f)]
      have : (processLogFile ctx st f).successful_logs + (processLogFile ctx st f).failed_logs
          = st.successful_logs + st.failed_logs + 1 := by
        cases hext : extract_metadata_from_log f.file_path f.parent_dir f.stem f.rawLines with
        | none => simp [processLogFile, hext]; omega
        | some m => simp [processLogFile, hext, insert_log_to_database]; omega
      simp only [List.length_cons]
      omega

/-- Witness for the amended C1 at the non-matching directory name. -/
theorem report_date_amended_witness :
    search_date_id "report_foo" = none ∧
      Option.map LogMetadata.report_date
          (extract_metadata_from_log "p" "report_foo" "STEP" (some ["hello\n"]))
        = some none :=
  ⟨by decide,
    ((report_date_amended.1 "p" "report_foo" "STEP" ["hello\n"]).1 (by decide)).1⟩

/-! ## Safe archive extraction -/

theorem splitSlash_ne_nil : ∀ s : List Char, splitSlash s ≠ [] := by
  intro s
  induction s with
  | nil => simp [splitSlash]
  | cons c cs ih =>
    by_cases h : c = '/'
    · simp [splitSlash, h]
    · simp only [splitSlash, if_neg h]
      cases hcs : splitSlash cs with
      | nil => simp
      | cons hh t => simp

theorem splitSlash_parts : ∀ s : List Char,
    (∀ h t, splitSlash s = h :: t → h <+: s) ∧ (∀ p ∈ splitSlash s, p <:+: s) := by
  intro s
  induction s with
  | nil =>
    constructor
    · intro h t he
      simp only [splitSlash] at he
      cases he
      exact ⟨[], rfl⟩
    · intro p hp
      simp only [splitSlash, List.mem_singleton] at hp
      subst hp
      exact ⟨[], [], rfl⟩
  | cons c cs ih =>
    by_cases h : c = '/'
    · subst h
      constructor
      · intro hh t he
        simp only [splitSlash, if_pos rfl] at he
        cases he
        exact ⟨_, rfl⟩
      · intro p hp
        simp only [splitSlash, if_pos rfl] at hp
        rcases List.mem_cons.mp hp with rfl | hp'
        · exact ⟨[], _, rfl⟩
        · obtain ⟨pre, post, hpp⟩ := ih.2 p hp'
          exact ⟨'/' :: pre, post, by simp [← hpp]⟩
    · cases hcs : splitSlash cs with
      | nil => exact absurd hcs (splitSlash_ne_nil cs)
      | cons hh t =>
        have hpre : hh <+: cs := ih.1 hh t hcs
        constructor
        · intro h2 t2 he
          simp only [splitSlash, if_neg h, hcs] at he
          cases he
          obtain ⟨t', ht'⟩ := hpre
          exact ⟨t', by simp [← ht']⟩
        · intro p hp
          simp only [splitSlash, if_neg h, hcs] at hp
          rcases List.mem_cons.mp hp with rfl | hp'
          · obtain ⟨t', ht'⟩ := hpre
            exact ⟨[], t', by simp [← ht']⟩
          · obtain ⟨pre, post, hpp⟩ := ih.2 p (by rw [hcs]; exact List.mem_cons_of_mem _ hp')
            exact ⟨c :: pre, post, by simp [← hpp]⟩

theorem dropLit_self_append (pat post : List Char) :
    dropLit pat (pat ++ post) = some post := by
  induction pat with
  | nil => rfl
  | cons c cs ih => simp [dropLit, ih]

theorem containsSeq_head {pat s : List Char} (h : (dropLit pat s).isSome = true) :
    containsSeq pat s = true := by
  cases s with
  | nil => simpa [containsSeq] using h
  | cons c cs => simp [containsSeq, h]

theorem containsSeq_of_infix {pat s : List Char} (h : pat <:+: s) :
    containsSeq pat s = true := by
  obtain ⟨pre, post, he⟩ := h
  induction pre generalizing s with
  | nil =>
    have hd : dropLit pat s = some post := by
      rw [← he]
      simpa using dropLit_self_append pat post
    exact containsSeq_head (by simp [hd])
  | cons a pre ih =>
    subst he
    show containsSeq pat (a :: (pre ++ pat ++ post)) = true
    simp only [containsSeq]
    have := ih rfl
    rw [Bool.or_eq_true]
    exact Or.inr (by simpa [List.append_assoc] using this)

theorem normFold_prefix :
    ∀ (parts : List (List Char)) (acc : List (List Char)),
      (∀ p ∈ parts, p ≠ ['.', '.']) → acc <+: normFold acc parts := by
  intro parts
  induction parts with
  | nil => intro acc _; exact ⟨[], by simp [normFold]⟩
  | cons p ps ih =>
    intro acc hp
    by_cases h1 : p = [] ∨ p = ['.']
    · have hstep : normFold acc (p :: ps) = normFold acc ps := by
        simp only [normFold, List.foldl_cons, if_pos h1]
      rw [hstep]
      exact ih acc (fun q hq => hp q (List.mem_cons_of_mem _ hq))
    · have hne : p ≠ ['.', '.'] := hp p (by simp)
      have hstep : normFold acc (p :: ps) = normFold (acc ++ [p]) ps := by
        simp only [normFold, List.foldl_cons, if_neg h1, if_neg hne]
      rw [hstep]
      obtain ⟨t2, ht2⟩ := ih (acc ++ [p]) (fun q hq => hp q (List.mem_cons_of_mem _ hq))
      exact ⟨[p] ++ t2, by rw [← ht2]; simp⟩

theorem allowed_containment {maxSize : ℕ} {m : ArchiveMember}
    (h : member_allowed maxSize m = true) :
    m.size ≤ maxSize ∧ ∀ dest, dest <+: resolveUnder dest m.name := by
  have h3 : (isAbsPath m.name = false
      ∧ containsSeq ['.', '.'] m.name.data = false)
      ∧ m.size ≤ maxSize := by
    simpa [member_allowed] using h
  refine ⟨h3.2, ?_⟩
  intro dest
  refine normFold_prefix _ dest ?_
  intro p hp heq
  subst heq
  have hinf := (splitSlash_parts m.name.toList).2 _ hp
  have hyes := containsSeq_of_infix hinf
  have hno : containsSeq ['.', '.'] m.name.toList = false := h3.1.2
  rw [hyes] at hno
  cases hno

/-- C7: every member kept by the safe extractors has declared size within
the limit and a resolved path inside the destination tree; members with
absolute paths, `..` segments, or oversize declarations are omitted
(never present in the result) and their omission leaves the rest of the
extraction unchanged — the archive as a whole still extracts. -/
theorem safe_extraction_containment :
    (∀ (maxSize : ℕ) (members : List ArchiveMember) (m : ArchiveMember),
        m ∈ _safe_extract_tar maxSize members →
          m.size ≤ maxSize ∧ ∀ dest, dest <+: resolveUnder dest m.name)
    ∧ (∀ (maxSize : ℕ) (members : List ArchiveMember) (m : ArchiveMember),
        m ∈ _safe_extract_zip maxSize members →
          m.size ≤ maxSize ∧ ∀ dest, dest <+: resolveUnder dest m.name)
    ∧ (∀ (maxSize : ℕ) (pre post : List ArchiveMember) (bad : ArchiveMember),
        member_allowed maxSize bad = false →
          _safe_extract_tar maxSize (pre ++ bad :: post)
              = _safe_extract_tar maxSize (pre ++ post)
          ∧ _safe_extract_zip maxSize (pre ++ bad :: post)
              = _safe_extract_zip maxSize (pre ++ post))
    ∧ (∀ (maxSize : ℕ) (members : List ArchiveMember) (m : ArchiveMember),
        member_allowed maxSize m = false →
          m ∉ _safe_extract_tar maxSize members
          ∧ m ∉ _safe_extract_zip maxSize members)
    ∧ (∀ (maxSize : ℕ) (m : ArchiveMember),
        member_allowed maxSize m = false ↔
          (isAbsPath m.name = true
            ∨ containsSeq "..".toList m.name.toList = true
            ∨ maxSize < m.size)) := by
  refine ⟨?_, ?_, ?_, ?_, ?_⟩
  · intro maxSize members m hm
    exact allowed_containment (List.mem_filter.mp hm).2
  · intro maxSize members m hm
    exact allowed_containment (List.mem_filter.mp hm).2
  · intro maxSize pre post bad hbad
    constructor <;>
      simp [_safe_extract_tar, _safe_extract_zip, List.filter_append,
        List.filter_cons, hbad]
  · intro maxSize members m hm
    constructor <;>
    · intro hmem
      have := (List.mem_filter.mp hmem).2
      rw [hm] at this
      cases this
  · intro maxSize m
    constructor
    · intro h
      by_contra hcon
      push_neg at hcon
      obtain ⟨hc1, hc2, hc3⟩ := hcon
      have h1 : isAbsPath m.name = false := by
        cases hx : isAbsPath m.name
        · rfl
        · exact absurd hx hc1
      have h2 : containsSeq "..".toList m.name.toList = false := by
        cases hx : containsSeq "..".toList m.name.toList
        · rfl
        · exact absurd hx hc2
      have h4 : member_allowed maxSize m = true := by
        simp [member_allowed, h1]
        exact ⟨by simpa using h2, by omega⟩
      rw [h] at h4
      cases h4
    · intro h
      cases hx : member_allowed maxSize m
      · rfl
      · exfalso
        have h3 : (isAbsPath m.name = false
            ∧ containsSeq ['.', '.'] m.name.data = false)
            ∧ m.size ≤ maxSize := by
          simpa [member_allowed] using hx
        rcases h with h | h | h
        · rw [h3.1.1] at h; cases h
        · have hyes : containsSeq ['.', '.'] m.name.data = true := h
          have hno := h3.1.2
          rw [hyes] at hno
          cases hno
        · have := h3.2
          omega

/-- Witness for C7: a two-member archive where the traversal member is
dropped and the good member stays contained under any destination. -/
theorem safe_extraction_witness :
    (⟨"logs/a.log", 5⟩ : ArchiveMember)
        ∈ _safe_extract_tar 10 [⟨"logs/a.log", 5⟩, ⟨"../etc/passwd", 1⟩]
    ∧ (⟨"logs/a.log", 5⟩ : ArchiveMember).size ≤ 10
    ∧ ∀ dest, dest <+: resolveUnder dest (⟨"logs/a.log", 5⟩ : ArchiveMember).name :=
  ⟨by decide,
    (safe_extraction_containment.1 10 [⟨"logs/a.log", 5⟩, ⟨"../etc/passwd", 1⟩]
      ⟨"logs/a.log", 5⟩ (by decide)).1,
    (safe_extraction_containment.1 10 [⟨"logs/a.log", 5⟩, ⟨"../etc/passwd", 1⟩]
      ⟨"logs/a.log", 5⟩ (by decide)).2⟩

/-! ## The idempotency gate -/

/-- C8: when the attachment id already has a record in the store (and the
lookup succeeds, as the loop performs it), the loop iteration only bumps
the skipped counter: the store is unchanged, the outcome is independent
of whatever download-extract-insert work `proc` would do — that work is
never invoked. -/
theorem idempotency_skip :
    ∀ (st : MainState) (att : AttachmentInfo)
      (p₁ p₂ : AttachmentInfo → List DbRow × ℕ × ℕ),
      0 < countAttachment st.store att.attachment_id →
      main_loop_step p₁ st att = { st with skipped := st.skipped + 1 }
      ∧ main_loop_step p₁ st att = main_loop_step p₂ st att
      ∧ (main_loop_step p₁ st att).store = st.store := by
  intro st att p₁ p₂ h
  have hchk : check_attachment_processed
      (Except.ok (countAttachment st.store att.attachment_id)) = true := by
    simp [check_attachment_processed, h]
  have h1 : main_loop_step p₁ st att = { st with skipped := st.skipped + 1 } := by
    simp [main_loop_step, main_step, hchk]
  have h2 : main_loop_step p₂ st att = { st with skipped := st.skipped + 1 } := by
    simp [main_loop_step, main_step, hchk]
  exact ⟨h1, h1.trans h2.symm, by rw [h1]⟩

/-- Witness for C8: a store already holding attachment `"A00"`. -/
theorem idempotency_skip_witness :
    0 < countAttachment [exRow] "A00"
    ∧ main_loop_step (fun _ => ([exRow], 1, 0))
        ⟨[exRow], 0, 0, 0, 0⟩ ⟨"A00", "r", none, none⟩
      = ⟨[exRow], 0, 1, 0, 0⟩ :=
  ⟨by decide,
    (idempotency_skip ⟨[exRow], 0, 0, 0, 0⟩ ⟨"A00", "r", none, none⟩
      (fun _ => ([exRow], 1, 0)) (fun _ => ([], 0, 0)) (by decide)).1⟩

/-- C10: a raised idempotency lookup makes `check_attachment_processed`
answer `false`, so the loop iteration takes the processing branch — the
attachment is re-extracted (the work runs and its rows are committed),
not skipped. -/
theorem lookup_error_fails_open :
    (∀ e : Unit, check_attachment_processed (Except.error e) = false)
    ∧ (∀ (e : Unit) (proc : AttachmentInfo → List DbRow × ℕ × ℕ)
        (st : MainState) (att : AttachmentInfo),
        (main_step (Except.error e) proc st att).skipped = st.skipped
        ∧ (main_step (Except.error e) proc st att).processed = st.processed + 1
        ∧ (main_step (Except.error e) proc st att).store
            = st.store ++ (proc att).1) := by
  constructor
  · intro e
    rfl
  · intro e proc st att
    refine ⟨?_, ?_, ?_⟩ <;> simp [main_step, check_attachment_processed]

/-! ## Subject-line parsing -/

/-- Counterexample to C9: the claim says both patterns are applied
case-insensitively, but the source passes no flag for `W-(\d+)`: on the
subject `"w-42: ..."` the code leaves the work identifier null while the
case-insensitive reading would capture 42 (the `Case` pattern, by
contrast, does match case-insensitively). -/
theorem work_pattern_case_sensitive :
    searchW "w-42: Step: X, Status: FAILED, Case: 53874260" = none
    ∧ searchW_CI "w-42: Step: X, Status: FAILED, Case: 53874260" = some 42
    ∧ searchCaseNum "w-42: Step: X, Status: FAILED, Case: 53874260"
        = some 53874260 :=
  ⟨by decide, by decide, by decide⟩

/-- C9 amended: the work identifier is parsed with `W-(\d+)` applied
case-SENSITIVELY and the case number with `Case[:\s]*(\d+)` applied
case-insensitively; a non-matching pattern leaves the identifier null,
and a match merges the captured digits verbatim as the numeric value into
the inserted row. -/
theorem subject_parsing_amended :
    (∀ (rows : List DbRow) (m : LogMetadata) (ctx : SfCtx),
        ∃ r, (insert_log_to_database rows m ctx).1 = rows ++ [r]
          ∧ r.work_id = ctx.work_id ∧ r.case_number = ctx.case_number)
    ∧ (∀ subject : String, searchW subject = none →
        (sf_metadata_of subject).1 = none)
    ∧ (∀ subject : String, searchCaseNum subject = none →
        (sf_metadata_of subject).2 = none)
    ∧ (searchW "W-42" = some 42 ∧ searchW "w-42" = none)
    ∧ (searchCaseNum "CASE 7" = some 7 ∧ searchCaseNum "case:7" = some 7) := by
  refine ⟨?_, ?_, ?_, ⟨by decide, by decide⟩, ⟨by decide, by decide⟩⟩
  · intro rows m ctx
    exact ⟨_, rfl, rfl, rfl⟩
  · intro subject h
    simpa [sf_metadata_of] using h
  · intro subject h
    simpa [sf_metadata_of] using h

/-- Witness for the amended C9: a subject with no matches keeps both
identifiers null. -/
theorem subject_parsing_amended_witness :
    searchW "nothing here" = none ∧ (sf_metadata_of "nothing here").1 = none :=
  ⟨by decide, subject_parsing_amended.2.1 "nothing here" (by decide)⟩

end PmdBot
